import Mathlib

/-!
Verification of the Pegasus qubit coordinate core (`pegasus_qac/pqubit.py`).

Python integer semantics: `//` is floor division (`Int.fdiv`) and `%` is the
floor-convention remainder (`Int.fmod`).  All machine integers are unbounded,
so plain `Int` is the faithful carrier.
-/

/-- The fixed 12-entry shift table `Pegasus0Shift`. -/
def Pegasus0Shift : List Int := [2, 2, 10, 10, 6, 6, 6, 6, 2, 2, 10, 10]

/-- List indexing `Pegasus0Shift[i]`; every use in the source stays in `[0, 11]`. -/
def shiftAt (i : Int) : Int := Pegasus0Shift.getD i.toNat 0

/-- The violation reported by `Pqubit._check_if_not_valid`, one constructor per
f-string, carrying the values interpolated into the message. -/
inductive CheckErr where
  | badM (m : Int)
  | badU (u : Int)
  | badW (w : Int) (m : Int)
  | badK (k : Int)
  | badZ (z : Int) (m : Int)
  deriving DecidableEq, Repr

/-- Model of `Pqubit._check_if_not_valid(m, u, w, k, z)`: returns the first failing rule,
checking `m`, `u`, `w`, `k`, `z` in that order, or `none` when all pass. -/
def checkIfNotValid (m u w k z : Int) : Option CheckErr :=
  if ¬ (1 ≤ m) then some (.badM m)
  else if ¬ (u = 0 ∨ u = 1) then some (.badU u)
  else if ¬ (0 ≤ w ∧ w ≤ m - 1) then some (.badW w m)
  else if ¬ (0 ≤ k ∧ k ≤ 11) then some (.badK k)
  else if ¬ (0 ≤ z ∧ z ≤ m - 2) then some (.badZ z m)
  else none

/-- The `Pqubit` object state: the five coordinates plus the deferred-validation
flag `_valid_coord` and the stored message `_check_str` (which is unset, here
`none`, whenever the flag is true). -/
structure Pqubit where
  m : Int
  u : Int
  w : Int
  k : Int
  z : Int
  validCoord : Bool
  checkStr : Option CheckErr
  deriving DecidableEq, Repr

/-- Model of `Pqubit.__init__(m, u, w, k, z, assert_valid)`: in strict mode a violation
raises `ValueError`; otherwise the object is built carrying the flag and the
stored message. -/
def Pqubit.init (m u w k z : Int) (assertValid : Bool) : Except CheckErr Pqubit :=
  match checkIfNotValid m u w k z with
  | some e => if assertValid then .error e else .ok ⟨m, u, w, k, z, false, some e⟩
  | none => .ok ⟨m, u, w, k, z, true, none⟩

/-- Model of `Pqubit.none_if_invalid`. -/
def Pqubit.noneIfInvalid (q : Pqubit) : Option Pqubit :=
  if q.validCoord then some q else none

/-- Model of `Pqubit.to_linear`: the linear index for a valid coordinate, or a
`RuntimeError` carrying the stored `_check_str` otherwise. -/
def Pqubit.toLinear (q : Pqubit) : Except (Option CheckErr) Int :=
  if q.validCoord then .ok (q.z + (q.m - 1) * (q.k + 12 * (q.w + q.m * q.u)))
  else .error q.checkStr

/-- Model of `Pqubit.is_vert_coord`. -/
def Pqubit.isVertCoord (q : Pqubit) : Bool := q.u = 0

/-- Model of `vert2horz(w, k)`: `(w2, k02, z2)` of the horizontal K_44 counterpart. -/
def vert2horz (w k : Int) : Int × Int × Int :=
  let xv := 3 * w + Int.fdiv k 4
  let yv := 2 + Int.fmod (2 * Int.fdiv k 4) 3
  let z2 := Int.fdiv (xv - 1) 3
  let w2 := Int.fdiv yv 3
  let k02 := Int.fmod yv 3 * 4
  (w2, k02, z2)

/-- Model of `horz2vert(w, k)`: `(w2, k02, z2)` of the vertical K_44 counterpart. -/
def horz2vert (w k : Int) : Int × Int × Int :=
  let xh := 1 + Int.fmod (2 * (Int.fdiv k 4 + 2)) 3
  let yh := 3 * w + Int.fdiv k 4
  let z2 := Int.fdiv (yh - 2) 3
  let w2 := Int.fdiv xh 3
  let k02 := Int.fmod xh 3 * 4
  (w2, k02, z2)

/-- Model of `internal_coupling(u, w, k, z, j)`: the parity-corrected coupling triple,
returned in the source's tuple order (unpacked by callers as `w2, k2, z2`). -/
def internalCoupling (u w k z j : Int) : Int × Int × Int :=
  if u = 0 then
    let d1 : Int := if j < shiftAt (Int.fdiv k 2) then 1 else 0
    let d2 : Int := if k < shiftAt (6 + Int.fdiv j 2) then 1 else 0
    (z + d1, j, w - d2)
  else
    let d1 : Int := if k < shiftAt (Int.fdiv j 2) then 1 else 0
    let d2 : Int := if j < shiftAt (6 + Int.fdiv k 2) then 1 else 0
    (z + d2, j, w - d1)

/-- Model of `Pqubit.conn_external(dz, **kwargs)`; the keyword argument is the
`assert_valid` mode of the constructed result (default `true`). -/
def Pqubit.connExternal (q : Pqubit) (dz : Int) (assertValid : Bool) :
    Except CheckErr Pqubit :=
  Pqubit.init q.m q.u q.w q.k (q.z + dz) assertValid

/-- Model of `Pqubit.conn_odd(**kwargs)`. -/
def Pqubit.connOdd (q : Pqubit) (assertValid : Bool) : Except CheckErr Pqubit :=
  let k2 := if Int.fmod q.k 2 = 0 then q.k + 1 else q.k - 1
  Pqubit.init q.m q.u q.w k2 q.z assertValid

/-- Model of `Pqubit.conn_k44(dk, **kwargs)`. -/
def Pqubit.connK44 (q : Pqubit) (dk : Int) (assertValid : Bool) :
    Except CheckErr Pqubit :=
  let t := if q.isVertCoord then vert2horz q.w q.k else horz2vert q.w q.k
  Pqubit.init q.m (1 - q.u) t.1 (t.2.1 + dk) t.2.2 assertValid

/-- Model of `Pqubit.conn_internal(dk)`: always constructs its result in the default
strict mode (the method takes no `**kwargs`). -/
def Pqubit.connInternal (q : Pqubit) (dk : Int) : Except CheckErr Pqubit :=
  let t := if q.isVertCoord then vert2horz q.w q.k else horz2vert q.w q.k
  let j := Int.fmod (t.2.1 + dk) 12
  let c := internalCoupling q.u q.w q.k q.z j
  Pqubit.init q.m (1 - q.u) c.1 c.2.1 c.2.2 true

/-- Model of `Pqubit.conn_internal_abs(j, **kwargs)`. -/
def Pqubit.connInternalAbs (q : Pqubit) (j : Int) (assertValid : Bool) :
    Except CheckErr Pqubit :=
  let c := internalCoupling q.u q.w q.k q.z j
  Pqubit.init q.m (1 - q.u) c.1 c.2.1 c.2.2 assertValid

/-- Model of `Pqubit.__eq__`: structural equality on the five coordinate fields only. -/
def Pqubit.eqb (a b : Pqubit) : Bool :=
  a.m = b.m ∧ a.u = b.u ∧ a.w = b.w ∧ a.k = b.k ∧ a.z = b.z

/-- Validity of a coordinate tuple: the validator reports nothing. -/
def validCoords (m u w k z : Int) : Prop := checkIfNotValid m u w k z = none

instance (m u w k z : Int) : Decidable (validCoords m u w k z) :=
  inferInstanceAs (Decidable (checkIfNotValid m u w k z = none))

/-- The linear-index formula of `Pqubit.to_linear` on raw coordinates. -/
def linearIndex (m u w k z : Int) : Int :=
  z + (m - 1) * (k + 12 * (w + m * u))

theorem validCoords_iff (m u w k z : Int) :
    validCoords m u w k z ↔
      1 ≤ m ∧ (u = 0 ∨ u = 1) ∧ (0 ≤ w ∧ w ≤ m - 1) ∧ (0 ≤ k ∧ k ≤ 11) ∧
        (0 ≤ z ∧ z ≤ m - 2) := by
  unfold validCoords checkIfNotValid
  split_ifs <;> simp_all

theorem init_of_valid (m u w k z : Int) (b : Bool)
    (h : checkIfNotValid m u w k z = none) :
    Pqubit.init m u w k z b = .ok ⟨m, u, w, k, z, true, none⟩ := by
  unfold Pqubit.init
  rw [h]

theorem init_strict_of_invalid (m u w k z : Int) (e : CheckErr)
    (h : checkIfNotValid m u w k z = some e) :
    Pqubit.init m u w k z true = .error e := by
  unfold Pqubit.init
  rw [h]
  rfl

theorem init_lax_of_invalid (m u w k z : Int) (e : CheckErr)
    (h : checkIfNotValid m u w k z = some e) :
    Pqubit.init m u w k z false = .ok ⟨m, u, w, k, z, false, some e⟩ := by
  unfold Pqubit.init
  rw [h]
  rfl

/-- C2: starting from the valid address `(m=3, u=Vertical, w=0, k=2, z=0)`, the
coupling chain external(+1), internal(-4), internal(+3), odd, internal(-2),
internal(0), internal(-5), internal(-2) returns to the starting address with
all five fields (including the size) identical. -/
theorem closed_loop_cycle :
    (Pqubit.init 3 0 0 2 0 true >>= fun q1 =>
      q1.connExternal 1 true >>= fun q2 =>
      q2.connInternal (-4) >>= fun q3 =>
      q3.connInternal 3 >>= fun q4 =>
      q4.connOdd true >>= fun q5 =>
      q5.connInternal (-2) >>= fun q6 =>
      q6.connInternal 0 >>= fun q7 =>
      q7.connInternal (-5) >>= fun q8 =>
      q8.connInternal (-2)) = .ok ⟨3, 0, 0, 2, 0, true, none⟩ ∧
    Pqubit.eqb ⟨3, 0, 0, 2, 0, true, none⟩ ⟨3, 0, 0, 2, 0, true, none⟩ = true := by
  exact ⟨rfl, by decide⟩

/-- C3 counterexample: at the input `(u=Vertical, w=0, k=2, z=1, j=4)` the
code returns the triple `(1, 4, 0)`, not the spec's `(w - d2, j, z + d1)`
(which evaluates to `(0, 4, 1)` there, since `d1 = d2 = 0`). -/
theorem internal_coupling_swap_counterexample :
    internalCoupling 0 0 2 1 4 = (1, 4, 0) ∧
    ¬ internalCoupling 0 0 2 1 4 =
        (0 - (if (2 : Int) < shiftAt (6 + Int.fdiv 4 2) then 1 else 0), 4,
          1 + (if (4 : Int) < shiftAt (Int.fdiv 2 2) then 1 else 0)) := by
  decide

/-- C3 amended: the parity-corrected coupling returns, in tuple order, the
triple `(z + d1, j, w - d2)` when `u = Vertical` and `(z + d2, j, w - d1)`
when `u = Horizontal` — the spec's first and third components are swapped.
The `d1`/`d2` shift-table tests are exactly the spec's. -/
theorem internal_coupling_components (w k z j : Int) :
    internalCoupling 0 w k z j =
      (z + (if j < shiftAt (Int.fdiv k 2) then 1 else 0), j,
        w - (if k < shiftAt (6 + Int.fdiv j 2) then 1 else 0)) ∧
    internalCoupling 1 w k z j =
      (z + (if j < shiftAt (6 + Int.fdiv k 2) then 1 else 0), j,
        w - (if k < shiftAt (Int.fdiv j 2) then 1 else 0)) := by
  exact ⟨rfl, rfl⟩

/-- C4: the code contradicts `conn_internal`'s documented equivalence with
`conn_k44` on `dk ∈ [0, 3]`: at the valid address `(m=3, u=Vertical, w=1,
k=0, z=1)` with `dk = 0`, `conn_k44` yields `(u=1, w=0, k=8, z=0)` while
`conn_internal` yields `(u=1, w=1, k=8, z=0)`. -/
theorem conn_k44_conn_internal_disagree :
    validCoords 3 0 1 0 1 ∧
    Pqubit.connK44 ⟨3, 0, 1, 0, 1, true, none⟩ 0 true =
      .ok ⟨3, 1, 0, 8, 0, true, none⟩ ∧
    Pqubit.connInternal ⟨3, 0, 1, 0, 1, true, none⟩ 0 =
      .ok ⟨3, 1, 1, 8, 0, true, none⟩ ∧
    ¬ ((⟨3, 1, 0, 8, 0, true, none⟩ : Pqubit) = ⟨3, 1, 1, 8, 0, true, none⟩) := by
  exact ⟨by decide, rfl, rfl, by decide⟩

/-- C5 counterexample: the tile-geometry round trip does not return the pair
`(w, k) = (0, 0)` unchanged: `vert2horz 0 0` has `(w2, k0) = (0, 8)` and
`horz2vert 0 8` has `(w2, k0) = (1, 0)`, so the perpendicular offset comes
back as `1`, not `0` (likewise in the other direction). -/
theorem tile_round_trip_counterexample :
    (horz2vert (vert2horz 0 0).1 (vert2horz 0 0).2.1).1 = 1 ∧
    (vert2horz (horz2vert 0 0).1 (horz2vert 0 0).2.1).1 = 1 ∧
    ¬ ((1 : Int) = 0) := by
  decide

theorem vert2horz_k0_eq (w k : Int) :
    (vert2horz w k).2.1 = Int.fmod (2 + Int.fmod (2 * Int.fdiv k 4) 3) 3 * 4 := rfl

theorem horz2vert_k0_eq (w k : Int) :
    (horz2vert w k).2.1 = Int.fmod (1 + Int.fmod (2 * (Int.fdiv k 4 + 2)) 3) 3 * 4 := rfl

theorem vert2horz_w2_eq (w k : Int) :
    (vert2horz w k).1 = Int.fdiv (2 + Int.fmod (2 * Int.fdiv k 4) 3) 3 := rfl

theorem horz2vert_w2_eq (w k : Int) :
    (horz2vert w k).1 = Int.fdiv (1 + Int.fmod (2 * (Int.fdiv k 4 + 2)) 3) 3 := rfl

/-- C5 amended: for every `(w, k)` with `0 ≤ k ≤ 11` and `k mod 4 = 0`, the
round trip `vert2horz` then `horz2vert` (and vice versa) preserves the slot
component `k`; the returned offset component depends on `k` alone, so the full
pair is generally not preserved. -/
theorem tile_round_trip_slot (w k : Int) (hk0 : 0 ≤ k) (hk1 : k ≤ 11)
    (hk4 : Int.fmod k 4 = 0) :
    (horz2vert (vert2horz w k).1 (vert2horz w k).2.1).2.1 = k ∧
    (vert2horz (horz2vert w k).1 (horz2vert w k).2.1).2.1 = k := by
  rw [Int.fmod_eq_emod k (by norm_num)] at hk4
  have hcases : k = 0 ∨ k = 4 ∨ k = 8 := by omega
  rcases hcases with rfl | rfl | rfl <;>
    · simp only [horz2vert_k0_eq, vert2horz_k0_eq]
      exact ⟨by decide, by decide⟩

theorem tile_round_trip_slot_witness :
    (0 : Int) ≤ 4 ∧ (4 : Int) ≤ 11 ∧ Int.fmod 4 4 = 0 ∧
    ((horz2vert (vert2horz 9 4).1 (vert2horz 9 4).2.1).2.1 = 4 ∧
      (vert2horz (horz2vert 9 4).1 (horz2vert 9 4).2.1).2.1 = 4) :=
  ⟨by decide, by decide, by decide,
    tile_round_trip_slot 9 4 (by decide) (by decide) (by decide)⟩

/-- C9: for every `w` and every `k` with `0 ≤ k ≤ 11`, the `k0` component
returned by `vert2horz` and by `horz2vert` lies in `{0, 4, 8}`. -/
theorem k0_multiple_of_four (w k : Int) (hk0 : 0 ≤ k) (hk1 : k ≤ 11) :
    ((vert2horz w k).2.1 = 0 ∨ (vert2horz w k).2.1 = 4 ∨ (vert2horz w k).2.1 = 8) ∧
    ((horz2vert w k).2.1 = 0 ∨ (horz2vert w k).2.1 = 4 ∨ (horz2vert w k).2.1 = 8) := by
  have hcases : k = 0 ∨ k = 1 ∨ k = 2 ∨ k = 3 ∨ k = 4 ∨ k = 5 ∨ k = 6 ∨ k = 7 ∨
      k = 8 ∨ k = 9 ∨ k = 10 ∨ k = 11 := by omega
  rcases hcases with rfl | rfl | rfl | rfl | rfl | rfl | rfl | rfl | rfl | rfl | rfl | rfl <;>
    · simp only [horz2vert_k0_eq, vert2horz_k0_eq]
      exact ⟨by decide, by decide⟩

theorem k0_multiple_of_four_witness :
    (0 : Int) ≤ 5 ∧ (5 : Int) ≤ 11 ∧
    (((vert2horz 2 5).2.1 = 0 ∨ (vert2horz 2 5).2.1 = 4 ∨ (vert2horz 2 5).2.1 = 8) ∧
      ((horz2vert 2 5).2.1 = 0 ∨ (horz2vert 2 5).2.1 = 4 ∨ (horz2vert 2 5).2.1 = 8)) :=
  ⟨by decide, by decide, k0_multiple_of_four 2 5 (by decide) (by decide)⟩

theorem init_error_iff (m u w k z : Int) (b : Bool) :
    (∃ e, Pqubit.init m u w k z b = .error e) ↔
      b = true ∧ checkIfNotValid m u w k z ≠ none := by
  unfold Pqubit.init
  cases h : checkIfNotValid m u w k z <;> cases b <;> simp [h]

/-- C6 counterexample: the coupling operations can fail on a perfectly valid
input: at the valid strict address `(m=3, u=Vertical, w=0, k=0, z=1)`,
`conn_external` (with its default keyword arguments) raises because the result
coordinate `z = 2` is out of range — contradicting the claim that the
operations fail only on inputs already marked invalid and otherwise always
return a result. -/
theorem coupling_failure_counterexample :
    validCoords 3 0 0 0 1 ∧
    Pqubit.connExternal ⟨3, 0, 0, 0, 1, true, none⟩ 1 true =
      .error (.badZ 2 3) :=
  ⟨by decide, rfl⟩

/-- C6 amended: no coupling operation inspects the input's validity flag or
stored message — each is exactly a fresh construction from the computed
coordinates, in the validation mode passed at the call (`conn_internal` is
always strict) — and such a construction fails precisely when the mode is
strict and the computed result violates the range constraints. -/
theorem coupling_failure_characterization (m u w k z : Int) (vc : Bool)
    (cs : Option CheckErr) (dz dk j : Int) (b : Bool) :
    (Pqubit.connExternal ⟨m, u, w, k, z, vc, cs⟩ dz b =
        Pqubit.init m u w k (z + dz) b) ∧
    (Pqubit.connOdd ⟨m, u, w, k, z, vc, cs⟩ b =
        Pqubit.init m u w (if Int.fmod k 2 = 0 then k + 1 else k - 1) z b) ∧
    (Pqubit.connK44 ⟨m, u, w, k, z, vc, cs⟩ dk b =
        (let t := if Pqubit.isVertCoord ⟨m, u, w, k, z, vc, cs⟩ then vert2horz w k
          else horz2vert w k
        Pqubit.init m (1 - u) t.1 (t.2.1 + dk) t.2.2 b)) ∧
    (Pqubit.connInternal ⟨m, u, w, k, z, vc, cs⟩ dk =
        (let t := if Pqubit.isVertCoord ⟨m, u, w, k, z, vc, cs⟩ then vert2horz w k
          else horz2vert w k
        let c := internalCoupling u w k z (Int.fmod (t.2.1 + dk) 12)
        Pqubit.init m (1 - u) c.1 c.2.1 c.2.2 true)) ∧
    (Pqubit.connInternalAbs ⟨m, u, w, k, z, vc, cs⟩ j b =
        (let c := internalCoupling u w k z j
        Pqubit.init m (1 - u) c.1 c.2.1 c.2.2 b)) ∧
    ((∃ e, Pqubit.init m u w k z b = .error e) ↔
        b = true ∧ checkIfNotValid m u w k z ≠ none) :=
  ⟨rfl, rfl, rfl, rfl, rfl, init_error_iff m u w k z b⟩

/-- C7: the validator checks `m`, `u`, `w`, `k`, `z` in that fixed order and
the first failing rule determines the single reported violation; with `m = 1`
only `w = 0` passes the `w` rule while every `z` fails (the range `[0, -1]`
is empty); `k = 12`, `k = -1` and `m = 0` each fail. -/
theorem validation_order_and_boundaries :
    (∀ m u w k z : Int,
        checkIfNotValid m u w k z = some (.badM m) ↔ ¬ 1 ≤ m) ∧
    (∀ m u w k z : Int,
        checkIfNotValid m u w k z = some (.badU u) ↔
          1 ≤ m ∧ ¬ (u = 0 ∨ u = 1)) ∧
    (∀ m u w k z : Int,
        checkIfNotValid m u w k z = some (.badW w m) ↔
          1 ≤ m ∧ (u = 0 ∨ u = 1) ∧ ¬ (0 ≤ w ∧ w ≤ m - 1)) ∧
    (∀ m u w k z : Int,
        checkIfNotValid m u w k z = some (.badK k) ↔
          1 ≤ m ∧ (u = 0 ∨ u = 1) ∧ (0 ≤ w ∧ w ≤ m - 1) ∧
            ¬ (0 ≤ k ∧ k ≤ 11)) ∧
    (∀ m u w k z : Int,
        checkIfNotValid m u w k z = some (.badZ z m) ↔
          1 ≤ m ∧ (u = 0 ∨ u = 1) ∧ (0 ≤ w ∧ w ≤ m - 1) ∧ (0 ≤ k ∧ k ≤ 11) ∧
            ¬ (0 ≤ z ∧ z ≤ m - 2)) ∧
    (∀ u w k z : Int, (u = 0 ∨ u = 1) → w ≠ 0 →
        checkIfNotValid 1 u w k z = some (.badW w 1)) ∧
    (∀ u k z : Int, (u = 0 ∨ u = 1) → 0 ≤ k → k ≤ 11 →
        checkIfNotValid 1 u 0 k z = some (.badZ z 1)) ∧
    (∀ m u w z : Int, 1 ≤ m → (u = 0 ∨ u = 1) → 0 ≤ w → w ≤ m - 1 →
        checkIfNotValid m u w 12 z = some (.badK 12) ∧
        checkIfNotValid m u w (-1) z = some (.badK (-1))) ∧
    (∀ u w k z : Int, checkIfNotValid 0 u w k z = some (.badM 0)) := by
  refine ⟨?_, ?_, ?_, ?_, ?_, ?_, ?_, ?_, ?_⟩ <;>
    · intros
      unfold checkIfNotValid
      split_ifs <;> simp_all <;> omega

/-- C8: non-strict construction never fails; on the resulting invalid address
`none_if_invalid` returns the sentinel `none` while a valid address is
returned unchanged; and `to_linear` on any invalid address fails carrying the
violation message stored at construction. -/
theorem deferred_validation :
    (∀ (m u w k z : Int) (e : CheckErr), checkIfNotValid m u w k z = some e →
        Pqubit.init m u w k z false = .ok ⟨m, u, w, k, z, false, some e⟩ ∧
        Pqubit.noneIfInvalid ⟨m, u, w, k, z, false, some e⟩ = none ∧
        Pqubit.toLinear ⟨m, u, w, k, z, false, some e⟩ = .error (some e)) ∧
    (∀ m u w k z : Int, checkIfNotValid m u w k z = none →
        Pqubit.init m u w k z false = .ok ⟨m, u, w, k, z, true, none⟩ ∧
        Pqubit.noneIfInvalid ⟨m, u, w, k, z, true, none⟩ =
          some ⟨m, u, w, k, z, true, none⟩) ∧
    (∀ q : Pqubit, q.validCoord = false → q.toLinear = .error q.checkStr) := by
  refine ⟨?_, ?_, ?_⟩
  · intro m u w k z e h
    exact ⟨init_lax_of_invalid m u w k z e h, rfl, rfl⟩
  · intro m u w k z h
    exact ⟨init_of_valid m u w k z false h, rfl⟩
  · intro q h
    simp [Pqubit.toLinear, h]

theorem deferred_validation_witness :
    checkIfNotValid 3 0 0 15 0 = some (.badK 15) ∧
    (Pqubit.init 3 0 0 15 0 false = .ok ⟨3, 0, 0, 15, 0, false, some (.badK 15)⟩ ∧
      Pqubit.noneIfInvalid ⟨3, 0, 0, 15, 0, false, some (.badK 15)⟩ = none ∧
      Pqubit.toLinear ⟨3, 0, 0, 15, 0, false, some (.badK 15)⟩ =
        .error (some (.badK 15))) :=
  ⟨by decide, deferred_validation.1 3 0 0 15 0 (.badK 15) (by decide)⟩

theorem validation_order_and_boundaries_witness :
    ((0 : Int) = 0 ∨ (0 : Int) = 1) ∧ (0 : Int) ≤ 3 ∧ (3 : Int) ≤ 11 ∧
    checkIfNotValid 1 0 0 3 7 = some (.badZ 7 1) :=
  ⟨Or.inl rfl, by decide, by decide,
    validation_order_and_boundaries.2.2.2.2.2.2.1 0 3 7 (Or.inl rfl)
      (by decide) (by decide)⟩

/-- C10: on a valid address `conn_odd` keeps `m`, `u`, `w`, `z` and maps the
slot `k` to `k+1` when `k` is even and to `k-1` when `k` is odd, and applying
it twice returns the original address. -/
theorem conn_odd_involution (m u w k z : Int) (h : validCoords m u w k z) :
    Pqubit.connOdd ⟨m, u, w, k, z, true, none⟩ true =
      .ok ⟨m, u, w, if Int.fmod k 2 = 0 then k + 1 else k - 1, z, true, none⟩ ∧
    Pqubit.connOdd ⟨m, u, w, if Int.fmod k 2 = 0 then k + 1 else k - 1, z,
        true, none⟩ true =
      .ok ⟨m, u, w, k, z, true, none⟩ := by
  have hb := (validCoords_iff m u w k z).mp h
  have hpar : Int.fmod k 2 = k % 2 := Int.fmod_eq_emod k (by norm_num)
  by_cases he : Int.fmod k 2 = 0
  · have he' : k % 2 = 0 := by rw [← hpar]; exact he
    have hv1 : validCoords m u w (k + 1) z :=
      (validCoords_iff m u w (k + 1) z).mpr (by omega)
    have hs : Int.fmod (k + 1) 2 = 1 := by
      rw [Int.fmod_eq_emod (k + 1) (by norm_num)]
      omega
    constructor
    · show Pqubit.init m u w (if Int.fmod k 2 = 0 then k + 1 else k - 1) z true = _
      rw [if_pos he]
      exact init_of_valid m u w (k + 1) z true hv1
    · show Pqubit.init m u w
        (if Int.fmod (if Int.fmod k 2 = 0 then k + 1 else k - 1) 2 = 0
          then (if Int.fmod k 2 = 0 then k + 1 else k - 1) + 1
          else (if Int.fmod k 2 = 0 then k + 1 else k - 1) - 1) z true = _
      rw [if_pos he, if_neg (by rw [hs]; norm_num)]
      have : k + 1 - 1 = k := by ring
      rw [this]
      exact init_of_valid m u w k z true h
  · have he' : k % 2 = 1 := by rw [← hpar]; omega
    have hv1 : validCoords m u w (k - 1) z :=
      (validCoords_iff m u w (k - 1) z).mpr (by omega)
    have hs : Int.fmod (k - 1) 2 = 0 := by
      rw [Int.fmod_eq_emod (k - 1) (by norm_num)]
      omega
    constructor
    · show Pqubit.init m u w (if Int.fmod k 2 = 0 then k + 1 else k - 1) z true = _
      rw [if_neg he]
      exact init_of_valid m u w (k - 1) z true hv1
    · show Pqubit.init m u w
        (if Int.fmod (if Int.fmod k 2 = 0 then k + 1 else k - 1) 2 = 0
          then (if Int.fmod k 2 = 0 then k + 1 else k - 1) + 1
          else (if Int.fmod k 2 = 0 then k + 1 else k - 1) - 1) z true = _
      rw [if_neg he, if_pos (by rw [hs])]
      have : k - 1 + 1 = k := by ring
      rw [this]
      exact init_of_valid m u w k z true h

theorem conn_odd_involution_witness :
    validCoords 3 0 0 2 0 ∧
    (Pqubit.connOdd ⟨3, 0, 0, 2, 0, true, none⟩ true =
        .ok ⟨3, 0, 0, 3, 0, true, none⟩ ∧
      Pqubit.connOdd ⟨3, 0, 0, 3, 0, true, none⟩ true =
        .ok ⟨3, 0, 0, 2, 0, true, none⟩) :=
  ⟨by decide, conn_odd_involution 3 0 0 2 0 (by decide)⟩

theorem digit_split (b x y A B : Int) (hx0 : 0 ≤ x) (hx1 : x < b)
    (hy0 : 0 ≤ y) (hy1 : y < b) (h : x + b * A = y + b * B) : x = y ∧ A = B := by
  have hb : 0 < b := lt_of_le_of_lt hx0 hx1
  have hAB : A = B := by
    rcases lt_trichotomy A B with hlt | heq | hgt
    · exfalso
      have h1 : b * (A + 1) ≤ b * B :=
        mul_le_mul_of_nonneg_left (by omega) (le_of_lt hb)
      have h2 : b * (A + 1) = b * A + b := by ring
      linarith
    · exact heq
    · exfalso
      have h1 : b * (B + 1) ≤ b * A :=
        mul_le_mul_of_nonneg_left (by omega) (le_of_lt hb)
      have h2 : b * (B + 1) = b * B + b := by ring
      linarith
  subst hAB
  exact ⟨by linarith, rfl⟩

theorem lin_bounds (m u w k z : Int) (h : validCoords m u w k z) :
    0 ≤ linearIndex m u w k z ∧ linearIndex m u w k z < 24 * m * (m - 1) := by
  obtain ⟨hm, hu, ⟨hw0, hw1⟩, ⟨hk0, hk1⟩, ⟨hz0, hz1⟩⟩ :=
    (validCoords_iff m u w k z).mp h
  have hu0 : 0 ≤ u := by omega
  have hu1 : u ≤ 1 := by omega
  have hmu0 : 0 ≤ m * u := mul_nonneg (by omega) hu0
  have hmu1 : m * u ≤ m := by nlinarith
  unfold linearIndex
  constructor
  · have hA : 0 ≤ k + 12 * (w + m * u) := by linarith
    have := mul_nonneg (show (0 : Int) ≤ m - 1 by omega) hA
    linarith
  · have hA1 : k + 12 * (w + m * u) ≤ 24 * m - 1 := by linarith
    have h2 : (m - 1) * (k + 12 * (w + m * u)) ≤ (m - 1) * (24 * m - 1) :=
      mul_le_mul_of_nonneg_left hA1 (by omega)
    have h3 : (m - 1) * (24 * m - 1) = 24 * m * (m - 1) - (m - 1) := by ring
    linarith

theorem lin_inj (m u w k z u2 w2 k2 z2 : Int)
    (h : validCoords m u w k z) (h2 : validCoords m u2 w2 k2 z2)
    (heq : linearIndex m u w k z = linearIndex m u2 w2 k2 z2) :
    u = u2 ∧ w = w2 ∧ k = k2 ∧ z = z2 := by
  obtain ⟨hm, hu, ⟨hw0, hw1⟩, ⟨hk0, hk1⟩, ⟨hz0, hz1⟩⟩ :=
    (validCoords_iff m u w k z).mp h
  obtain ⟨-, hu2, ⟨hw20, hw21⟩, ⟨hk20, hk21⟩, ⟨hz20, hz21⟩⟩ :=
    (validCoords_iff m u2 w2 k2 z2).mp h2
  have hm2 : 2 ≤ m := by omega
  unfold linearIndex at heq
  obtain ⟨hz, hA⟩ :=
    digit_split (m - 1) z z2 _ _ hz0 (by omega) hz20 (by omega) heq
  obtain ⟨hk, hB⟩ := digit_split 12 k k2 _ _ hk0 (by omega) hk20 (by omega) hA
  obtain ⟨hw, hC⟩ := digit_split m w w2 u u2 hw0 (by omega) hw20 (by omega) hB
  exact ⟨hC, hw, hk, hz⟩

theorem lin_surj (m n : Int) (hm : 1 ≤ m) (hn0 : 0 ≤ n)
    (hn1 : n < 24 * m * (m - 1)) :
    ∃ u w k z, validCoords m u w k z ∧ linearIndex m u w k z = n := by
  have hm1 : m ≠ 1 := by
    rintro rfl
    norm_num at hn1
    omega
  have hm2 : 2 ≤ m := by omega
  have hb1 : 0 < m - 1 := by omega
  have hz0 : 0 ≤ n % (m - 1) := Int.emod_nonneg n (by omega)
  have hz1 : n % (m - 1) < m - 1 := Int.emod_lt_of_pos n hb1
  have hqe : (m - 1) * (n / (m - 1)) + n % (m - 1) = n := Int.ediv_add_emod n (m - 1)
  have hq0 : 0 ≤ n / (m - 1) := Int.ediv_nonneg hn0 (by omega)
  have hq1 : n / (m - 1) < 24 * m := Int.ediv_lt_of_lt_mul hb1 hn1
  have hk0 : 0 ≤ n / (m - 1) % 12 := Int.emod_nonneg _ (by norm_num)
  have hk1 : n / (m - 1) % 12 < 12 := Int.emod_lt_of_pos _ (by norm_num)
  have hre : 12 * (n / (m - 1) / 12) + n / (m - 1) % 12 = n / (m - 1) :=
    Int.ediv_add_emod _ 12
  have hr0 : 0 ≤ n / (m - 1) / 12 := Int.ediv_nonneg hq0 (by norm_num)
  have hr1 : n / (m - 1) / 12 < 2 * m := by
    apply Int.ediv_lt_of_lt_mul (by norm_num : (0 : Int) < 12)
    linarith
  have hw0 : 0 ≤ n / (m - 1) / 12 % m := Int.emod_nonneg _ (by omega)
  have hw1 : n / (m - 1) / 12 % m < m := Int.emod_lt_of_pos _ (by omega)
  have hwe : m * (n / (m - 1) / 12 / m) + n / (m - 1) / 12 % m = n / (m - 1) / 12 :=
    Int.ediv_add_emod _ m
  have hu0 : 0 ≤ n / (m - 1) / 12 / m := Int.ediv_nonneg hr0 (by omega)
  have hu1 : n / (m - 1) / 12 / m < 2 := by
    apply Int.ediv_lt_of_lt_mul (by omega : (0 : Int) < m)
    linarith
  refine ⟨n / (m - 1) / 12 / m, n / (m - 1) / 12 % m, n / (m - 1) % 12,
    n % (m - 1), ?_, ?_⟩
  · rw [validCoords_iff]
    exact ⟨by omega, by omega, ⟨hw0, by omega⟩, ⟨hk0, by omega⟩, ⟨hz0, by omega⟩⟩
  · unfold linearIndex
    have e1 : n / (m - 1) / 12 % m + m * (n / (m - 1) / 12 / m) =
        n / (m - 1) / 12 := by linarith
    rw [e1]
    have e2 : n / (m - 1) % 12 + 12 * (n / (m - 1) / 12) = n / (m - 1) := by
      linarith
    rw [e2]
    linarith

/-- The linear-indexer contract at size `m`: `to_linear` on a valid address
realizes the mixed-radix formula, the formula is injective over valid
coordinates, and its image over valid coordinates is exactly the interval
`[0, 24·m·(m-1))`. -/
def toLinearSpec (m : Int) : Prop :=
  (∀ q : Pqubit, q.validCoord = true → q.m = m →
      q.toLinear = .ok (q.z + (m - 1) * (q.k + 12 * (q.w + m * q.u)))) ∧
  (∀ u w k z u2 w2 k2 z2 : Int,
      validCoords m u w k z → validCoords m u2 w2 k2 z2 →
      linearIndex m u w k z = linearIndex m u2 w2 k2 z2 →
      u = u2 ∧ w = w2 ∧ k = k2 ∧ z = z2) ∧
  (∀ n : Int,
      (∃ u w k z, validCoords m u w k z ∧ linearIndex m u w k z = n) ↔
        0 ≤ n ∧ n < 24 * m * (m - 1))

/-- C1: for every size `m ≥ 1`, `to_linear` on valid addresses computes
`z + (m-1)·(k + 12·(w + m·u))`, this formula is injective over valid
addresses, and its image is exactly `[0, 24·m·(m-1))`. -/
theorem to_linear_formula_injective_image (m : Int) (hm : 1 ≤ m) :
    toLinearSpec m := by
  refine ⟨?_, ?_, ?_⟩
  · intro q hq hqm
    simp [Pqubit.toLinear, hq, hqm]
  · intro u w k z u2 w2 k2 z2 h1 h2 heq
    exact lin_inj m u w k z u2 w2 k2 z2 h1 h2 heq
  · intro n
    constructor
    · rintro ⟨u, w, k, z, hv, rfl⟩
      exact lin_bounds m u w k z hv
    · rintro ⟨hn0, hn1⟩
      exact lin_surj m n hm hn0 hn1

theorem to_linear_formula_injective_image_witness :
    (1 : Int) ≤ 3 ∧ toLinearSpec 3 :=
  ⟨by decide, to_linear_formula_injective_image 3 (by decide)⟩
